import Mathlib

/- Verification of the two algorithms of the glyphtools repository
   (src/glyphtools/__init__.py): the kerning distance solver
   `determine_kern` and the metric binning routine `bin_glyphs_by_metric`,
   together with the glyph category helpers `categorize_glyph` and
   `set_glyph_category`.  The embedding follows the Python source; numbers
   that Python handles as exact ints/floats/Fractions are modelled as `ℚ`,
   and Python exceptions are modelled with `Except`. -/

/-- Python errors that `determine_kern` can raise.  `typeError` models the
`TypeError` raised by arithmetic or comparison on `None` (e.g.
`abs(None - targetdistance)` when no pair distance was computed).
`missingGeometry` is modelled from the spec: the spec's `MissingGeometry`
error kind ("a glyph has no outlines when kerning is requested"); the code
in `src/glyphtools/__init__.py` never raises it. -/
inductive PyErr where
  | typeError
  | missingGeometry
deriving DecidableEq

/-- Python `int()` applied to an exact rational: truncation toward zero
(`Int.tdiv` is T-division, which truncates toward zero). -/
def pyInt (q : ℚ) : ℤ := q.num.tdiv (q.den : ℤ)

/-- The list of pairwise path distances computed in one round of the
`determine_kern` loop (lines 267-274 of src/glyphtools/__init__.py): for
`p1` in `paths1` (translated by `offset1`), for `p2` in `paths2`
(translated by `Point(offset2.x + kern, offset2.y)`, where `offset2`
already had the left glyph's advance width added at line 258, handled here
by adding `width`).  The path type, translation and
`distanceToPath(_, samples=3)` belong to the external `beziers` library
and are abstracted as parameters. -/
def pairDists {P : Type} (translate : P → ℚ × ℚ → P) (dist : P → P → ℚ)
    (paths1 paths2 : List P) (width : ℚ) (offset1 offset2 : ℚ × ℚ)
    (kern : ℚ) : List ℚ :=
  paths1.flatMap (fun p1 =>
    paths2.map (fun p2 =>
      dist (translate p1 offset1)
        (translate p2 (offset2.1 + width + kern, offset2.2))))

/-- One update of the running minimum in `determine_kern` (line 272):
`if not minDistance or d[0] < minDistance: minDistance = d[0]`.
Python treats `minDistance == 0` as falsy, so a running minimum of exactly
`0` is overwritten by the next pair's distance unconditionally. -/
def updMin (minDistance : Option ℚ) (d : ℚ) : Option ℚ :=
  match minDistance with
  | none => some d
  | some m => if m = 0 ∨ d < m then some d else some m

/-- The round minimum of the `determine_kern` loop: fold of `updMin` over
the pair distances in iteration order, starting from `None`
(lines 265-274). -/
def roundMin (dists : List ℚ) : Option ℚ := dists.foldl updMin none

/-- The true minimum of a list of rationals (`none` on the empty list),
used to compare `roundMin` with the global minimum over all outline
pairs. -/
def listMin (dists : List ℚ) : Option ℚ :=
  dists.foldl (fun acc d =>
    match acc with
    | none => some d
    | some m => some (min m d)) none

/-- The non-improvement break test of `determine_kern` (line 275):
`if not lastBest or minDistance < lastBest: lastBest = minDistance`
`else: break`.  The loop breaks exactly when this returns `true`.  Python
treats `lastBest == 0` as falsy, so a previous best of exactly `0` never
triggers the break. -/
def nonImprove (lastBest : Option ℚ) (minDistance : ℚ) : Bool :=
  match lastBest with
  | none => false
  | some lb => if lb = 0 then false else !(decide (minDistance < lb))

/-- The `while True` refinement loop of `determine_kern` (lines 262-282),
parameterised by the pair-distance list of each candidate kern value.
`rem` counts the remaining iterations before the hard cap: Python's test
`iterations > 10` (with `iterations` starting at 0 and incremented at the
end of each completed round) corresponds to `rem = 11 - iterations`, so
the loop starts with `rem = 11` and the cap fires when `rem = 0`.
The result is the final kern value (or the Python error raised) paired
with the number of executions of the loop body; one loop-body execution
(one computation of the pairwise minimum distance) is one round.
When the pair list is empty, `minDistance` stays `None` and the loop
raises `TypeError` (at `minDistance < lastBest`, or at
`abs(minDistance - targetdistance)`), modelled by `PyErr.typeError`. -/
def kernLoopGo (pd : ℚ → List ℚ) (targetdistance : ℚ) :
    ℕ → ℚ → Option ℚ → (Except PyErr ℚ) × ℕ
  | rem, kern, lastBest =>
    match roundMin (pd kern) with
    | none => (Except.error PyErr.typeError, 1)
    | some d =>
      if nonImprove lastBest d then (Except.ok kern, 1)
      else
        match rem with
        | 0 => (Except.ok kern, 1)
        | r + 1 =>
          if |d - targetdistance| < 1 then (Except.ok kern, 1)
          else
            let p := kernLoopGo pd targetdistance r
              (kern + (targetdistance - d)) (some d)
            (p.1, p.2 + 1)

/-- `determine_kern` (lines 225-288) for the fontTools path: the outlines
produced by `BezierPath.fromFonttoolsGlyph` and the advance width read
from `get_glyph_metrics` are inputs, with outline geometry abstracted by
the path type `P`, the `translate` operation and the 3-sample
`distanceToPath` function `dist` of the external `beziers` library.
Line 258 adds the left glyph's advance width to `offset2` (here folded
into `pairDists`); after the loop, the clamp of lines 284-287 bounds the
kern below by `-(width * maxtuck)` when `maxtuck` is truthy (nonzero) and
by `-width` otherwise, and line 288 truncates the result to an integer. -/
def determine_kern {P : Type} (translate : P → ℚ × ℚ → P) (dist : P → P → ℚ)
    (paths1 paths2 : List P) (width : ℚ) (targetdistance : ℚ)
    (offset1 offset2 : ℚ × ℚ) (maxtuck : ℚ) : Except PyErr ℤ :=
  match (kernLoopGo (pairDists translate dist paths1 paths2 width offset1 offset2)
      targetdistance 11 0 none).1 with
  | Except.error e => Except.error e
  | Except.ok kern =>
    Except.ok (pyInt (if maxtuck ≠ 0 then max kern (-(width * maxtuck))
      else max kern (-width)))


/-! ### The binning engine: `bin_glyphs_by_metric` over a spec-modelled
`ckmeans` -/

/-- Error kind of the binning engine: the spec's `InvalidBinRequest`
(empty sample set or non-positive bin count). -/
inductive BinError where
  | invalidBinRequest
deriving DecidableEq

/-- Arithmetic mean of a list of rationals (`statistics.mean`).  The Python
function raises on an empty list, which cannot happen in
`bin_glyphs_by_metric` because clusters are never empty; the model is
total (division by zero yields 0 in Lean). -/
def pyMean (l : List ℚ) : ℚ := l.sum / l.length

/-- The sample values in ascending order. -/
def sortedData (l : List ℚ) : List ℚ := l.insertionSort (· ≤ ·)

/-- The distinct sample values in ascending order. -/
def distinctSorted (l : List ℚ) : List ℚ := (sortedData l).dedup

/-- All compositions of `n` into `k` positive parts: the candidate sizes
of `k` contiguous nonempty groups covering `n` sorted distinct values. -/
def compositions : ℕ → ℕ → List (List ℕ)
  | n, 0 => if n = 0 then [[]] else []
  | n, k + 1 =>
    (List.range n).flatMap (fun i =>
      (compositions (n - (i + 1)) k).map (fun c => (i + 1) :: c))

/-- Split a list into consecutive groups of the given sizes. -/
def splitByComp : List ℚ → List ℕ → List (List ℚ)
  | _, [] => []
  | xs, p :: ps => xs.take p :: splitByComp (xs.drop p) ps

/-- The members of each cluster: all sample values (with multiplicity, in
ascending order) whose value lies in the given group of distinct
values. -/
def clustersOf (data : List ℚ) (groups : List (List ℚ)) : List (List ℚ) :=
  groups.map (fun g => (sortedData data).filter (fun v => v ∈ g))

/-- Sum of squared deviations from the mean of a cluster: the within-bin
variance measure minimised by ckmeans. -/
def ssdev (c : List ℚ) : ℚ := (c.map (fun v => (v - pyMean c) ^ 2)).sum

/-- Total within-cluster cost of one composition of the distinct values
into contiguous groups. -/
def compCost (data distinct : List ℚ) (comp : List ℕ) : ℚ :=
  ((clustersOf data (splitByComp distinct comp)).map ssdev).sum

/-- Modelled from the spec: the one-dimensional ckmeans clustering used by
`bin_glyphs_by_metric` (`from .ckmeans import ckmeans`; the module
`ckmeans.py` of this repository is not among the sources).  Following
section 4.2 of the spec: it fails on an empty sample sequence or a bin
count below 1 (`InvalidBinRequest`); a bin count exceeding the number of
distinct samples is silently reduced; the values are partitioned into
contiguous ranges on the number line minimising the sum of within-range
variances over all partitions into that many contiguous groups; the
clusters are returned in ascending order of value range and are never
empty.  Ties between partitions of equal cost go to the first in the
enumeration order of `compositions`. -/
def ckmeans (data : List ℚ) (k : ℕ) : Except BinError (List (List ℚ)) :=
  if data = [] ∨ k = 0 then Except.error BinError.invalidBinRequest
  else
    match (compositions (distinctSorted data).length
        (min k (distinctSorted data).length)).argmin
        (compCost data (distinctSorted data)) with
    | some comp =>
      Except.ok (clustersOf data (splitByComp (distinctSorted data) comp))
    | none => Except.ok []

/-- The loop body of lines 212-221 of `bin_glyphs_by_metric`: one bin from
one cluster — the metric pairs whose value is a member of the cluster
(`if m[1] in c`), listed by name, together with the truncated mean of
their values. -/
def binOfCluster (metrics : List (String × ℚ)) (c : List ℚ) :
    List String × ℤ :=
  ((metrics.filter (fun m => m.2 ∈ c)).map (fun x => x.1),
   pyInt (pyMean ((metrics.filter (fun m => m.2 ∈ c)).map (fun x => x.2))))

/-- `bin_glyphs_by_metric` (lines 183-222): the metric lookup
`get_glyph_metrics(font, g)[category]` is abstracted as the function `fm`.
Line 206 pairs each glyph with its metric value, line 207 projects the
values, lines 208-209 reduce `bincount` to the number of glyphs when it
exceeds it, line 210 calls ckmeans, and lines 211-222 build one bin per
cluster. -/
def bin_glyphs_by_metric (fm : String → ℚ) (glyphs : List String)
    (bincount : ℕ) : Except BinError (List (List String × ℤ)) :=
  match ckmeans ((glyphs.map (fun g => (g, fm g))).map (fun x => x.2))
      (if bincount > glyphs.length then glyphs.length else bincount) with
  | Except.error e => Except.error e
  | Except.ok clusters =>
    Except.ok (clusters.map (binOfCluster (glyphs.map (fun g => (g, fm g)))))

/-- Distance oracle exhibiting a 12-round run of the kerning loop: the
distance decreases by 1 every round while the kern moves, and never comes
within 1 unit of the target 0. -/
def twelveRoundDists (k : ℚ) : List ℚ :=
  [if k = 0 then 13 else if k = -13 then 12 else if k = -25 then 11
   else if k = -36 then 10 else if k = -46 then 9 else if k = -55 then 8
   else if k = -63 then 7 else if k = -70 then 6 else if k = -76 then 5
   else if k = -81 then 4 else if k = -85 then 3 else if k = -88 then 2
   else 1]


/-! ### Glyph categories: `categorize_glyph` and `set_glyph_category` -/

/-- The parts of a fontTools `TTFont` read and written by
`categorize_glyph` and `set_glyph_category` (lines 38-58 and 76-89):
presence of the GDEF table, the `GlyphClassDef.classDefs` dictionary,
truthiness of `MarkAttachClassDef`, and its `classDefs` dictionary.
Dictionaries are modelled as partial maps; the write path assumes the GDEF
table is present, as the source does at line 76. -/
structure TTFont where
  hasGDEF : Bool
  glyphClassDef : String → Option ℤ
  hasMarkAttachClassDef : Bool
  markAttachClassDef : String → Option ℤ

/-- A babelfont glyph record: the `category` attribute written by
`set_glyph_category`, plus other per-glyph data (advance width, a stored
mark attachment class), so that the frame condition "only the category
field changes" can be stated. -/
structure BabelGlyph where
  category : String
  width : ℚ
  markAttachmentClass : Option ℤ

/-- A font as dispatched on by `categorize_glyph` and
`set_glyph_category`: either a babelfont font (`isbabelfont`: it has a
`_set_kerning` attribute) or a fontTools TTFont.  The glyphsLib branch
(`glyphs.isglyphs`) lives in the `glyphtools.glyphs` module, which is not
among the sources, and is not modelled; it is checked first and is false
for both font kinds here. -/
inductive Font where
  | babel (f : String → BabelGlyph)
  | ttf (f : TTFont)

/-- `categorize_glyph` (lines 21-58).  For a babelfont font it returns the
glyph's category attribute and no mark class (line 37).  For a fontTools
font: no GDEF table, a glyph absent from `GlyphClassDef.classDefs`, or a
class code other than 1-4 all give `("unknown", None)`; class 3 is a mark
whose attachment class is looked up in `MarkAttachClassDef` when that
table is truthy. -/
def categorize_glyph : Font → String → String × Option ℤ
  | Font.babel f, glyphname => ((f glyphname).category, none)
  | Font.ttf f, glyphname =>
    if f.hasGDEF = false then ("unknown", none)
    else
      match f.glyphClassDef glyphname with
      | none => ("unknown", none)
      | some c =>
        if c = 1 then ("base", none)
        else if c = 2 then ("ligature", none)
        else if c = 3 then
          ("mark",
            if f.hasMarkAttachClassDef then f.markAttachClassDef glyphname
            else none)
        else if c = 4 then ("component", none)
        else ("unknown", none)

/-- The `ValueError("Unknown category")` raised at line 89. -/
inductive CatError where
  | valueError
deriving DecidableEq

/-- `set_glyph_category` (lines 61-89).  On a babelfont font it sets the
glyph's `category` attribute and returns immediately (lines 72-74): the
`maClass` argument is not used and no category validation happens on that
path.  On a fontTools font it writes the class code into
`GlyphClassDef.classDefs`; for marks it additionally writes `maClass` into
`MarkAttachClassDef.classDefs` when both `maClass` and the table are
truthy, and it raises `ValueError` for an unknown category. -/
def set_glyph_category (font : Font) (glyphname : String) (category : String)
    (maClass : Option ℤ) : Except CatError Font :=
  match font with
  | Font.babel f =>
    Except.ok (Font.babel (fun g =>
      if g = glyphname then { f g with category := category } else f g))
  | Font.ttf f =>
    if category = "base" then
      Except.ok (Font.ttf { f with glyphClassDef := (fun g =>
        if g = glyphname then some 1 else f.glyphClassDef g) })
    else if category = "ligature" then
      Except.ok (Font.ttf { f with glyphClassDef := (fun g =>
        if g = glyphname then some 2 else f.glyphClassDef g) })
    else if category = "mark" then
      (match maClass with
      | some m =>
        if m ≠ 0 ∧ f.hasMarkAttachClassDef then
          Except.ok (Font.ttf { f with
            glyphClassDef := (fun g =>
              if g = glyphname then some 3 else f.glyphClassDef g),
            markAttachClassDef := (fun g =>
              if g = glyphname then some m else f.markAttachClassDef g) })
        else
          Except.ok (Font.ttf { f with glyphClassDef := (fun g =>
            if g = glyphname then some 3 else f.glyphClassDef g) })
      | none =>
        Except.ok (Font.ttf { f with glyphClassDef := (fun g =>
          if g = glyphname then some 3 else f.glyphClassDef g) }))
    else if category = "component" then
      Except.ok (Font.ttf { f with glyphClassDef := (fun g =>
        if g = glyphname then some 4 else f.glyphClassDef g) })
    else Except.error CatError.valueError

/-! ### Helper lemmas for the kerning solver -/

theorem pyInt_nonneg {q : ℚ} (h : 0 ≤ q) : 0 ≤ pyInt q :=
  Int.tdiv_nonneg (Rat.num_nonneg.mpr h) (Int.ofNat_nonneg _)

theorem le_pyInt_of_lt_zero {q : ℚ} (h : q < 0) : q ≤ (pyInt q : ℚ) := by
  have hden : (0 : ℤ) ≤ (q.den : ℤ) := Int.ofNat_nonneg _
  have hnum : q.num < 0 := by
    by_contra hc
    push_neg at hc
    exact absurd (Rat.num_nonneg.mp hc) (not_le.mpr h)
  have h1 : pyInt q = -((-q.num).tdiv (q.den : ℤ)) := by
    simp [pyInt, Int.neg_tdiv]
  have h2 : (-q.num).tdiv (q.den : ℤ) = (-q.num) / (q.den : ℤ) :=
    Int.tdiv_eq_ediv (by omega) hden
  have h3 : (-q.num) / (q.den : ℤ) = ⌊((-q.num : ℤ) : ℚ) / ((q.den : ℕ) : ℚ)⌋ :=
    (Rat.floor_intCast_div_natCast _ _).symm
  have h4 : ((-q.num : ℤ) : ℚ) / ((q.den : ℕ) : ℚ) = -q := by
    push_cast
    rw [neg_div, Rat.num_div_den]
  have h5 : pyInt q = -⌊-q⌋ := by rw [h1, h2, h3, h4]
  rw [h5]
  push_cast
  have h6 := Int.floor_le (-q)
  linarith

theorem le_pyInt_max {kern b : ℚ} (hb : b ≤ 0) : b ≤ (pyInt (max kern b) : ℚ) := by
  rcases le_or_lt 0 (max kern b) with h | h
  · have h0 : (0 : ℤ) ≤ pyInt (max kern b) := pyInt_nonneg h
    have h1 : (0 : ℚ) ≤ (pyInt (max kern b) : ℚ) := by exact_mod_cast h0
    linarith
  · exact le_trans (le_max_right kern b) (le_pyInt_of_lt_zero h)

theorem pairDists_eq_nil {P : Type} (translate : P → ℚ × ℚ → P) (dist : P → P → ℚ)
    (paths1 paths2 : List P) (width : ℚ) (offset1 offset2 : ℚ × ℚ) (kern : ℚ)
    (h : paths1 = [] ∨ paths2 = []) :
    pairDists translate dist paths1 paths2 width offset1 offset2 kern = [] := by
  rcases h with h | h <;> simp [pairDists, h]

/-- One-step equations for `kernLoopGo`, used to evaluate and reason about
the loop without uncontrolled unfolding. -/
theorem kernLoopGo_none (pd : ℚ → List ℚ) (t : ℚ) (rem : ℕ) (kern : ℚ)
    (lastBest : Option ℚ) (h : roundMin (pd kern) = none) :
    kernLoopGo pd t rem kern lastBest = (Except.error PyErr.typeError, 1) := by
  rw [kernLoopGo, h]

theorem kernLoopGo_break (pd : ℚ → List ℚ) (t : ℚ) (rem : ℕ) (kern : ℚ)
    (lastBest : Option ℚ) (d : ℚ) (hmd : roundMin (pd kern) = some d)
    (hni : nonImprove lastBest d = true) :
    kernLoopGo pd t rem kern lastBest = (Except.ok kern, 1) := by
  rw [kernLoopGo, hmd]
  simp [hni]

theorem kernLoopGo_cap (pd : ℚ → List ℚ) (t : ℚ) (kern : ℚ)
    (lastBest : Option ℚ) (d : ℚ) (hmd : roundMin (pd kern) = some d)
    (hni : nonImprove lastBest d = false) :
    kernLoopGo pd t 0 kern lastBest = (Except.ok kern, 1) := by
  rw [kernLoopGo, hmd]
  simp [hni]

theorem kernLoopGo_close (pd : ℚ → List ℚ) (t : ℚ) (rem r : ℕ) (kern : ℚ)
    (lastBest : Option ℚ) (d : ℚ) (hrem : rem = r + 1)
    (hmd : roundMin (pd kern) = some d)
    (hni : nonImprove lastBest d = false) (habs : |d - t| < 1) :
    kernLoopGo pd t rem kern lastBest = (Except.ok kern, 1) := by
  subst hrem
  rw [kernLoopGo, hmd]
  simp [hni, habs]

theorem kernLoopGo_step (pd : ℚ → List ℚ) (t : ℚ) (rem r : ℕ) (kern : ℚ)
    (lastBest : Option ℚ) (d : ℚ) (hrem : rem = r + 1)
    (hmd : roundMin (pd kern) = some d)
    (hni : nonImprove lastBest d = false) (habs : ¬ |d - t| < 1) :
    kernLoopGo pd t rem kern lastBest =
      ((kernLoopGo pd t r (kern + (t - d)) (some d)).1,
       (kernLoopGo pd t r (kern + (t - d)) (some d)).2 + 1) := by
  subst hrem
  rw [kernLoopGo, hmd]
  simp [hni, habs]

theorem kernLoopGo_rounds_le (pd : ℚ → List ℚ) (t : ℚ) :
    ∀ (rem : ℕ) (kern : ℚ) (lastBest : Option ℚ),
      (kernLoopGo pd t rem kern lastBest).2 ≤ rem + 1 := by
  intro rem
  induction rem with
  | zero =>
    intro kern lastBest
    cases hmd : roundMin (pd kern) with
    | none => rw [kernLoopGo_none pd t 0 kern lastBest hmd]
    | some d =>
      cases hni : nonImprove lastBest d with
      | true => rw [kernLoopGo_break pd t 0 kern lastBest d hmd hni]
      | false => rw [kernLoopGo_cap pd t kern lastBest d hmd hni]
  | succ r ih =>
    intro kern lastBest
    cases hmd : roundMin (pd kern) with
    | none =>
      rw [kernLoopGo_none pd t (r + 1) kern lastBest hmd]
      omega
    | some d =>
      cases hni : nonImprove lastBest d with
      | true =>
        rw [kernLoopGo_break pd t (r + 1) kern lastBest d hmd hni]
        omega
      | false =>
        by_cases habs : |d - t| < 1
        · rw [kernLoopGo_close pd t (r + 1) r kern lastBest d rfl hmd hni habs]
          omega
        · rw [kernLoopGo_step pd t (r + 1) r kern lastBest d rfl hmd hni habs]
          have h2 := ih (kern + (t - d)) (some d)
          simp only []
          omega

/-- The value part of `roundMin` folded from a nonzero seed, when no later
distance is zero, is the plain running minimum. -/
theorem roundMin_fold_eq_min (l : List ℚ) :
    ∀ (m : ℚ), m ≠ 0 → (∀ d ∈ l, d ≠ 0) →
      l.foldl updMin (some m) =
        l.foldl (fun acc d =>
          match acc with
          | none => some d
          | some m' => some (min m' d)) (some m) := by
  induction l with
  | nil => intro m _ _; rfl
  | cons d l ih =>
    intro m hm hl
    have hd : d ≠ 0 := hl d (List.mem_cons_self d l)
    have hstep : updMin (some m) d = some (min m d) := by
      simp only [updMin]
      rcases lt_or_le d m with hlt | hle
      · rw [if_pos (Or.inr hlt), min_eq_right (le_of_lt hlt)]
      · rw [if_neg, min_eq_left hle]
        push_neg
        exact ⟨hm, hle⟩
    have hmin : min m d ≠ 0 := by
      rcases min_choice m d with hc | hc <;> rw [hc]
      · exact hm
      · exact hd
    simp only [List.foldl_cons, hstep]
    exact ih (min m d) hmin (fun x hx => hl x (List.mem_cons_of_mem d hx))

theorem roundMin_eq_listMin_of_ne_zero (l : List ℚ) (h : ∀ d ∈ l, d ≠ 0) :
    roundMin l = listMin l := by
  cases l with
  | nil => rfl
  | cons d l =>
    have hd : d ≠ 0 := h d (List.mem_cons_self d l)
    simp only [roundMin, listMin, List.foldl_cons]
    show l.foldl updMin (updMin none d) = _
    simp only [updMin]
    exact roundMin_fold_eq_min l d hd (fun x hx => h x (List.mem_cons_of_mem d hx))

/-! ### Claims C1-C5: the kerning distance solver -/

/-- Claim C1: for every pair of glyphs and every target distance (including
pathologically small or negative targets), `determine_kern` returns a value
that is never less than `-(widthA * maxtuck)` when `maxtuck` is set
(truthy, i.e. nonzero), and never less than `-widthA` when `maxtuck` is
unset/falsy — stated for the nonnegative advance widths and `maxtuck`
fractions of real fonts. -/
theorem determine_kern_lower_bound {P : Type} (translate : P → ℚ × ℚ → P)
    (dist : P → P → ℚ) (paths1 paths2 : List P) (width targetdistance : ℚ)
    (offset1 offset2 : ℚ × ℚ) (maxtuck : ℚ) (r : ℤ)
    (hw : 0 ≤ width) (hmt : 0 ≤ maxtuck)
    (hres : determine_kern translate dist paths1 paths2 width targetdistance
      offset1 offset2 maxtuck = Except.ok r) :
    (maxtuck ≠ 0 → -(width * maxtuck) ≤ (r : ℚ)) ∧
      (maxtuck = 0 → -width ≤ (r : ℚ)) := by
  unfold determine_kern at hres
  cases hk : (kernLoopGo (pairDists translate dist paths1 paths2 width offset1
      offset2) targetdistance 11 0 none).1 with
  | error e =>
    rw [hk] at hres
    exact absurd hres (by simp)
  | ok kern =>
    rw [hk] at hres
    simp only [Except.ok.injEq] at hres
    subst hres
    constructor
    · intro h0
      rw [if_pos h0]
      exact le_pyInt_max (neg_nonpos.mpr (mul_nonneg hw hmt))
    · intro h0
      rw [if_neg (not_not_intro h0)]
      exact le_pyInt_max (neg_nonpos.mpr hw)

theorem determine_kern_lower_bound_witness :
    -((100 : ℚ) * (2 / 5)) ≤ (((0 : ℤ)) : ℚ) := by
  have hmd : roundMin (pairDists (P := Unit) (fun p _ => p) (fun _ _ => 5)
      [()] [()] 100 (0, 0) (0, 0) 0) = some 5 := rfl
  have hloop := kernLoopGo_close (pairDists (P := Unit) (fun p _ => p)
      (fun _ _ => 5) [()] [()] 100 (0, 0) (0, 0)) 5 11 10 0 none 5 rfl hmd rfl
      (by norm_num)
  have hres : determine_kern (P := Unit) (fun p _ => p) (fun _ _ => 5)
      [()] [()] 100 5 (0, 0) (0, 0) (2 / 5) = Except.ok 0 := by
    unfold determine_kern
    rw [hloop]
    show Except.ok (pyInt (if (2 / 5 : ℚ) ≠ 0 then max 0 (-(100 * (2 / 5)))
      else max 0 (-100))) = Except.ok 0
    rw [if_pos (show (2 / 5 : ℚ) ≠ 0 by norm_num),
      max_eq_left (show (-(100 * (2 / 5)) : ℚ) ≤ 0 by norm_num)]
    rfl
  have h := determine_kern_lower_bound (P := Unit) (fun p _ => p) (fun _ _ => 5)
    [()] [()] 100 5 (0, 0) (0, 0) (2 / 5) 0 (by norm_num) (by norm_num) hres
  exact h.1 (by norm_num)

/-- Claim C2 (amended): if either glyph passed to `determine_kern` has zero
outlines, the call fails — but with an unhandled `TypeError` from `None`
arithmetic (`abs(None - targetdistance)`), not with an explicit
`MissingGeometry` ("no geometry") error, which the code never defines or
raises.  It does not silently return 0. -/
theorem determine_kern_no_outlines_error {P : Type} (translate : P → ℚ × ℚ → P)
    (dist : P → P → ℚ) (paths1 paths2 : List P) (width targetdistance : ℚ)
    (offset1 offset2 : ℚ × ℚ) (maxtuck : ℚ)
    (h : paths1 = [] ∨ paths2 = []) :
    determine_kern translate dist paths1 paths2 width targetdistance offset1
      offset2 maxtuck = Except.error PyErr.typeError := by
  have hpd : pairDists translate dist paths1 paths2 width offset1 offset2 0 = [] :=
    pairDists_eq_nil _ _ _ _ _ _ _ _ h
  have hmd : roundMin (pairDists translate dist paths1 paths2 width offset1
      offset2 0) = none := by
    rw [hpd]
    rfl
  unfold determine_kern
  rw [kernLoopGo_none _ _ _ _ _ hmd]

theorem determine_kern_no_outlines_error_witness :
    determine_kern (P := Unit) (fun p _ => p) (fun _ _ => 0) [()] [] 100 5
      (0, 0) (0, 0) (2 / 5) = Except.error PyErr.typeError :=
  determine_kern_no_outlines_error _ _ _ _ _ _ _ _ _ (Or.inr rfl)

/-- Claim C2 counterexample: on a glyph with zero outlines the call raises
`TypeError`, which is not the `MissingGeometry` error the claim
requires. -/
theorem determine_kern_no_outlines_counterexample :
    determine_kern (P := Unit) (fun p _ => p) (fun _ _ => 0) [] [()] 100 5
      (0, 0) (0, 0) (2 / 5) = Except.error PyErr.typeError ∧
      PyErr.typeError ≠ PyErr.missingGeometry := by
  constructor
  · have hmd : roundMin (pairDists (P := Unit) (fun p _ => p) (fun _ _ => 0)
        [] [()] 100 (0, 0) (0, 0) 0) = none := rfl
    unfold determine_kern
    rw [kernLoopGo_none _ _ _ _ _ hmd]
  · decide

/-- Claim C3 (amended): in every round of the `determine_kern` loop, if the
previous round's best `lastBest` is truthy (nonzero) and the round's
minimum distance `d` is not strictly smaller than it, the loop stops and
the kern value from the previous round is kept.  When `lastBest` is exactly
0, Python falsiness makes the round behave as if there were no previous
best, so the loop does not stop (see the counterexample). -/
theorem determine_kern_nonimprovement_stop (pd : ℚ → List ℚ) (t : ℚ) (rem : ℕ)
    (kern lb d : ℚ) (hlb : lb ≠ 0) (hge : ¬ d < lb)
    (hmd : roundMin (pd kern) = some d) :
    kernLoopGo pd t rem kern (some lb) = (Except.ok kern, 1) := by
  apply kernLoopGo_break pd t rem kern (some lb) d hmd
  simp [nonImprove, hlb, hge]

theorem determine_kern_nonimprovement_stop_witness :
    kernLoopGo (fun _ => [5]) 0 11 0 (some 3) = (Except.ok 0, 1) :=
  determine_kern_nonimprovement_stop _ _ _ _ _ 5 (by norm_num) (by norm_num) rfl

/-- Claim C3 counterexample: with a previous best of exactly 0 (round 1
finds touching outlines, distance 0) and a target distance of 100, round 2
finds distance 5, which does not improve on 0 — yet the loop does not stop:
it keeps refining and returns kern 195 after 3 rounds, not the kern 100 of
the round that followed the best round. -/
theorem determine_kern_zero_lastbest_counterexample :
    kernLoopGo (fun k => [if k = 0 then 0 else 5]) 100 11 0 none
      = (Except.ok 195, 3) ∧
    roundMin ((fun k => [if k = 0 then (0 : ℚ) else 5]) 100) = some 5 ∧
    ¬ ((5 : ℚ) < 0) ∧ ((195 : ℚ)) ≠ 100 := by
  refine ⟨?_, rfl, by norm_num, by norm_num⟩
  have h3 : kernLoopGo (fun k => [if k = 0 then 0 else 5]) 100 9 195 (some 5)
      = (Except.ok 195, 1) :=
    kernLoopGo_break _ _ _ _ _ 5 rfl rfl
  have h2 : kernLoopGo (fun k => [if k = 0 then 0 else 5]) 100 10 100 (some 0)
      = (Except.ok 195, 2) := by
    have hmd : roundMin ((fun k => [if k = 0 then (0 : ℚ) else 5]) 100)
        = some 5 := rfl
    have hni : nonImprove (some 0) 5 = false := rfl
    rw [kernLoopGo_step (fun k => [if k = 0 then 0 else 5]) 100 10 9 100
      (some 0) 5 rfl hmd hni (by norm_num)]
    rw [show (100 : ℚ) + (100 - 5) = 195 by norm_num, h3]
  have h1 : kernLoopGo (fun k => [if k = 0 then 0 else 5]) 100 11 0 none
      = (Except.ok 195, 3) := by
    have hmd : roundMin ((fun k => [if k = 0 then (0 : ℚ) else 5]) 0)
        = some 0 := rfl
    have hni : nonImprove none 0 = false := rfl
    rw [kernLoopGo_step (fun k => [if k = 0 then 0 else 5]) 100 11 10 0 none 0
      rfl hmd hni (by norm_num)]
    rw [show (0 : ℚ) + (100 - 0) = 100 by norm_num, h2]
  exact h1

/-- Claim C4 (amended): in every round of `determine_kern`, the round's
distance `d` equals the global minimum over every pair of translated
outlines of the sampled path distance, provided no pair's distance is
exactly 0.  When a pair's distance is exactly 0, Python falsiness resets
the running minimum and `d` can exceed the global minimum (see the
counterexample). -/
theorem determine_kern_round_min {P : Type} (translate : P → ℚ × ℚ → P)
    (dist : P → P → ℚ) (paths1 paths2 : List P) (width : ℚ)
    (offset1 offset2 : ℚ × ℚ) (kern : ℚ)
    (h : ∀ d ∈ pairDists translate dist paths1 paths2 width offset1 offset2
      kern, d ≠ 0) :
    roundMin (pairDists translate dist paths1 paths2 width offset1 offset2 kern)
      = listMin (pairDists translate dist paths1 paths2 width offset1 offset2
        kern) :=
  roundMin_eq_listMin_of_ne_zero _ h

theorem determine_kern_round_min_witness :
    roundMin (pairDists (P := ℚ) (fun p _ => p) (fun a b => a + b) [1] [2, 3]
        0 (0, 0) (0, 0) 0)
      = listMin (pairDists (P := ℚ) (fun p _ => p) (fun a b => a + b) [1] [2, 3]
        0 (0, 0) (0, 0) 0) :=
  determine_kern_round_min _ _ _ _ _ _ _ _ (by norm_num [pairDists])

/-- Claim C4 counterexample: with one outline in glyph A and two in glyph
B, where the first pair's distance is exactly 0 and the second pair's is 5,
the round's `minDistance` ends up 5 while the global minimum over the pairs
is 0: `if not minDistance` treats the running minimum 0 as unset. -/
theorem determine_kern_round_min_counterexample :
    roundMin (pairDists (P := ℚ) (fun p _ => p) (fun _ b => b) [1] [0, 5] 0
        (0, 0) (0, 0) 0) = some 5 ∧
    listMin (pairDists (P := ℚ) (fun p _ => p) (fun _ b => b) [1] [0, 5] 0
        (0, 0) (0, 0) 0) = some 0 ∧
    (5 : ℚ) ≠ 0 :=
  ⟨rfl, rfl, by norm_num⟩

/-- Claim C5 (amended): the `determine_kern` refinement loop always
terminates (the loop function is total); it stops when
`|d - targetdistance| < 1`, when the iteration counter exceeds 10, or on
non-improvement, and it executes the loop body (the full pairwise distance
computation) at most 12 times: the iteration counter passes the values
0..10, so 11 rounds complete with a kern adjustment and a 12th round can
run before the cap check stops it (see the counterexample with exactly 12
rounds).  `determine_kern` enters the loop with `rem = 11`,
`kern = 0`, `lastBest = None`. -/
theorem determine_kern_round_bound (pd : ℚ → List ℚ) (t : ℚ) :
    (kernLoopGo pd t 11 0 none).2 ≤ 12 := by
  have h := kernLoopGo_rounds_le pd t 11 0 none
  omega

/-- Claim C5 counterexample: a run of the loop (started exactly as
`determine_kern` starts it) that executes 12 rounds of the distance
computation, one more than the 11 rounds the claim allows. -/
theorem determine_kern_twelve_rounds_counterexample :
    (kernLoopGo twelveRoundDists 0 11 0 none).2 = 12 := by
  have h12 : kernLoopGo twelveRoundDists 0 0 (-88) (some 3)
      = (Except.ok (-88), 1) := kernLoopGo_cap _ _ _ _ 2 rfl rfl
  have h11 : kernLoopGo twelveRoundDists 0 1 (-85) (some 4)
      = (Except.ok (-88), 2) := by
    have hmd : roundMin (twelveRoundDists (-85)) = some 3 := rfl
    have hni : nonImprove (some 4) 3 = false := rfl
    rw [kernLoopGo_step twelveRoundDists 0 1 0 (-85) (some 4) 3
      rfl hmd hni (by norm_num)]
    rw [show (-85 : ℚ) + (0 - 3) = -88 by norm_num, h12]
  have h10 : kernLoopGo twelveRoundDists 0 2 (-81) (some 5)
      = (Except.ok (-88), 3) := by
    have hmd : roundMin (twelveRoundDists (-81)) = some 4 := rfl
    have hni : nonImprove (some 5) 4 = false := rfl
    rw [kernLoopGo_step twelveRoundDists 0 2 1 (-81) (some 5) 4
      rfl hmd hni (by norm_num)]
    rw [show (-81 : ℚ) + (0 - 4) = -85 by norm_num, h11]
  have h9 : kernLoopGo twelveRoundDists 0 3 (-76) (some 6)
      = (Except.ok (-88), 4) := by
    have hmd : roundMin (twelveRoundDists (-76)) = some 5 := rfl
    have hni : nonImprove (some 6) 5 = false := rfl
    rw [kernLoopGo_step twelveRoundDists 0 3 2 (-76) (some 6) 5
      rfl hmd hni (by norm_num)]
    rw [show (-76 : ℚ) + (0 - 5) = -81 by norm_num, h10]
  have h8 : kernLoopGo twelveRoundDists 0 4 (-70) (some 7)
      = (Except.ok (-88), 5) := by
    have hmd : roundMin (twelveRoundDists (-70)) = some 6 := rfl
    have hni : nonImprove (some 7) 6 = false := rfl
    rw [kernLoopGo_step twelveRoundDists 0 4 3 (-70) (some 7) 6
      rfl hmd hni (by norm_num)]
    rw [show (-70 : ℚ) + (0 - 6) = -76 by norm_num, h9]
  have h7 : kernLoopGo twelveRoundDists 0 5 (-63) (some 8)
      = (Except.ok (-88), 6) := by
    have hmd : roundMin (twelveRoundDists (-63)) = some 7 := rfl
    have hni : nonImprove (some 8) 7 = false := rfl
    rw [kernLoopGo_step twelveRoundDists 0 5 4 (-63) (some 8) 7
      rfl hmd hni (by norm_num)]
    rw [show (-63 : ℚ) + (0 - 7) = -70 by norm_num, h8]
  have h6 : kernLoopGo twelveRoundDists 0 6 (-55) (some 9)
      = (Except.ok (-88), 7) := by
    have hmd : roundMin (twelveRoundDists (-55)) = some 8 := rfl
    have hni : nonImprove (some 9) 8 = false := rfl
    rw [kernLoopGo_step twelveRoundDists 0 6 5 (-55) (some 9) 8
      rfl hmd hni (by norm_num)]
    rw [show (-55 : ℚ) + (0 - 8) = -63 by norm_num, h7]
  have h5 : kernLoopGo twelveRoundDists 0 7 (-46) (some 10)
      = (Except.ok (-88), 8) := by
    have hmd : roundMin (twelveRoundDists (-46)) = some 9 := rfl
    have hni : nonImprove (some 10) 9 = false := rfl
    rw [kernLoopGo_step twelveRoundDists 0 7 6 (-46) (some 10) 9
      rfl hmd hni (by norm_num)]
    rw [show (-46 : ℚ) + (0 - 9) = -55 by norm_num, h6]
  have h4 : kernLoopGo twelveRoundDists 0 8 (-36) (some 11)
      = (Except.ok (-88), 9) := by
    have hmd : roundMin (twelveRoundDists (-36)) = some 10 := rfl
    have hni : nonImprove (some 11) 10 = false := rfl
    rw [kernLoopGo_step twelveRoundDists 0 8 7 (-36) (some 11) 10
      rfl hmd hni (by norm_num)]
    rw [show (-36 : ℚ) + (0 - 10) = -46 by norm_num, h5]
  have h3 : kernLoopGo twelveRoundDists 0 9 (-25) (some 12)
      = (Except.ok (-88), 10) := by
    have hmd : roundMin (twelveRoundDists (-25)) = some 11 := rfl
    have hni : nonImprove (some 12) 11 = false := rfl
    rw [kernLoopGo_step twelveRoundDists 0 9 8 (-25) (some 12) 11
      rfl hmd hni (by norm_num)]
    rw [show (-25 : ℚ) + (0 - 11) = -36 by norm_num, h4]
  have h2 : kernLoopGo twelveRoundDists 0 10 (-13) (some 13)
      = (Except.ok (-88), 11) := by
    have hmd : roundMin (twelveRoundDists (-13)) = some 12 := rfl
    have hni : nonImprove (some 13) 12 = false := rfl
    rw [kernLoopGo_step twelveRoundDists 0 10 9 (-13) (some 13) 12
      rfl hmd hni (by norm_num)]
    rw [show (-13 : ℚ) + (0 - 12) = -25 by norm_num, h3]
  have h1 : kernLoopGo twelveRoundDists 0 11 0 none
      = (Except.ok (-88), 12) := by
    rw [kernLoopGo_step twelveRoundDists 0 11 10 0 none 13 rfl rfl rfl (by norm_num)]
    rw [show (0 : ℚ) + (0 - 13) = -13 by norm_num, h2]
  rw [h1]

/-! ### Helper lemmas for the binning engine -/

theorem mem_compositions : ∀ {k n : ℕ} {c : List ℕ}, c ∈ compositions n k →
    c.sum = n ∧ c.length = k ∧ ∀ p ∈ c, 0 < p := by
  intro k
  induction k with
  | zero =>
    intro n c hc
    by_cases hn : n = 0
    · subst hn
      rw [show compositions 0 0 = [[]] from rfl, List.mem_singleton] at hc
      subst hc
      simp
    · simp only [compositions, if_neg hn] at hc
      exact absurd hc (List.not_mem_nil c)
  | succ k ih =>
    intro n c hc
    simp only [compositions] at hc
    rw [List.mem_flatMap] at hc
    obtain ⟨i, hi, hc⟩ := hc
    rw [List.mem_map] at hc
    obtain ⟨c2, hc2, rfl⟩ := hc
    obtain ⟨hs, hl, hp⟩ := ih hc2
    have hin : i < n := List.mem_range.mp hi
    refine ⟨?_, ?_, ?_⟩
    · simp only [List.sum_cons, hs]
      omega
    · simp [hl]
    · intro p hp2
      rcases List.mem_cons.mp hp2 with h | h
      · omega
      · exact hp p h

theorem compositions_exists : ∀ {k n : ℕ}, 1 ≤ k → k ≤ n →
    ∃ c, c ∈ compositions n k := by
  intro k
  induction k with
  | zero => intro n h1 _; omega
  | succ k ih =>
    intro n h1 hn
    by_cases hk : k = 0
    · subst hk
      refine ⟨[n], ?_⟩
      simp only [compositions]
      rw [List.mem_flatMap]
      refine ⟨n - 1, List.mem_range.mpr (by omega), ?_⟩
      rw [List.mem_map]
      refine ⟨[], ?_, ?_⟩
      · have h2 : n - (n - 1 + 1) = 0 := by omega
        rw [h2]
        simp [compositions]
      · have h3 : n - 1 + 1 = n := by omega
        rw [h3]
    · have h2 : 1 ≤ k := by omega
      have h3 : k ≤ n - 1 := by omega
      obtain ⟨c2, hc2⟩ := ih h2 h3
      refine ⟨1 :: c2, ?_⟩
      simp only [compositions]
      rw [List.mem_flatMap]
      refine ⟨0, List.mem_range.mpr (by omega), ?_⟩
      rw [List.mem_map]
      exact ⟨c2, by simpa using hc2, rfl⟩

theorem compositions_eq_nil : ∀ {k n : ℕ}, n < k → compositions n k = [] := by
  intro k
  induction k with
  | zero => intro n h; omega
  | succ k ih =>
    intro n h
    simp only [compositions]
    apply List.eq_nil_iff_forall_not_mem.mpr
    intro c hc
    rw [List.mem_flatMap] at hc
    obtain ⟨i, hi, hc⟩ := hc
    rw [List.mem_map] at hc
    obtain ⟨c2, hc2, _⟩ := hc
    have hin : i < n := List.mem_range.mp hi
    have hlt : n - (i + 1) < k := by omega
    rw [ih hlt] at hc2
    exact absurd hc2 (List.not_mem_nil c2)

theorem compositions_self : ∀ n : ℕ, compositions n n = [List.replicate n 1] := by
  intro n
  induction n with
  | zero => rfl
  | succ n ih =>
    simp only [compositions]
    rw [List.range_succ_eq_map, List.flatMap_cons]
    have htail : (List.flatMap ((List.range n).map Nat.succ) (fun i =>
        (compositions (n + 1 - (i + 1)) n).map (fun c => (i + 1) :: c))) = [] := by
      apply List.eq_nil_iff_forall_not_mem.mpr
      intro c hc
      rw [List.mem_flatMap] at hc
      obtain ⟨i, hi, hc⟩ := hc
      rw [List.mem_map] at hi
      obtain ⟨j, hj, rfl⟩ := hi
      have hjn : j < n := List.mem_range.mp hj
      have hlt : n + 1 - (Nat.succ j + 1) < n := by omega
      rw [compositions_eq_nil hlt] at hc
      simp at hc
    rw [htail, List.append_nil]
    have h0 : n + 1 - (0 + 1) = n := by omega
    rw [h0, ih]
    simp [List.replicate_succ]

theorem splitByComp_flatten : ∀ (ps : List ℕ) (xs : List ℚ),
    (splitByComp xs ps).flatten = xs.take ps.sum := by
  intro ps
  induction ps with
  | nil =>
    intro xs
    simp [splitByComp]
  | cons p ps ih =>
    intro xs
    simp only [splitByComp, List.flatten_cons, List.sum_cons, ih]
    exact (List.take_add xs p ps.sum).symm

theorem splitByComp_flatten_eq (ps : List ℕ) (xs : List ℚ)
    (h : ps.sum = xs.length) : (splitByComp xs ps).flatten = xs := by
  rw [splitByComp_flatten, h, List.take_length]

theorem splitByComp_context : ∀ (ps : List ℕ) (xs : List ℚ) (g : List ℚ),
    g ∈ splitByComp xs ps → ∃ pre post, xs = pre ++ g ++ post := by
  intro ps
  induction ps with
  | nil =>
    intro xs g h
    exact absurd h (List.not_mem_nil g)
  | cons p ps ih =>
    intro xs g h
    rcases List.mem_cons.mp h with h | h
    · refine ⟨[], xs.drop p, ?_⟩
      rw [h]
      simp [List.take_append_drop]
    · obtain ⟨pre, post, hsplit⟩ := ih (xs.drop p) g h
      refine ⟨xs.take p ++ pre, post, ?_⟩
      conv_lhs => rw [← List.take_append_drop p xs]
      rw [hsplit]
      simp [List.append_assoc]

theorem sortedData_sorted (l : List ℚ) : (sortedData l).Sorted (· ≤ ·) :=
  List.sorted_insertionSort _ l

theorem sortedData_perm (l : List ℚ) : List.Perm (sortedData l) l :=
  List.perm_insertionSort _ l

theorem mem_sortedData {v : ℚ} {l : List ℚ} : v ∈ sortedData l ↔ v ∈ l :=
  (sortedData_perm l).mem_iff

theorem distinctSorted_nodup (l : List ℚ) : (distinctSorted l).Nodup :=
  List.nodup_dedup _

theorem distinctSorted_sorted_le (l : List ℚ) :
    (distinctSorted l).Sorted (· ≤ ·) :=
  List.Pairwise.sublist (List.dedup_sublist _) (sortedData_sorted l)

theorem distinctSorted_sorted_lt (l : List ℚ) :
    (distinctSorted l).Sorted (· < ·) :=
  List.Sorted.lt_of_le (distinctSorted_sorted_le l) (distinctSorted_nodup l)

theorem mem_distinctSorted {v : ℚ} {l : List ℚ} :
    v ∈ distinctSorted l ↔ v ∈ l := by
  unfold distinctSorted
  rw [List.mem_dedup, mem_sortedData]

theorem distinctSorted_ne_nil {l : List ℚ} (h : l ≠ []) :
    distinctSorted l ≠ [] := by
  obtain ⟨x, hx⟩ := List.exists_mem_of_ne_nil l h
  exact List.ne_nil_of_mem (mem_distinctSorted.mpr hx)

theorem countP_eq_one_of_nodup_flatten : ∀ (gs : List (List ℚ)) (v : ℚ),
    gs.flatten.Nodup → v ∈ gs.flatten →
    gs.countP (fun g => decide (v ∈ g)) = 1 := by
  intro gs
  induction gs with
  | nil =>
    intro v _ hv
    simp at hv
  | cons g gs ih =>
    intro v hnd hv
    rw [List.flatten_cons] at hnd hv
    have hds : gs.flatten.Nodup := (List.nodup_append.mp hnd).2.1
    have hdis : g.Disjoint gs.flatten := (List.nodup_append.mp hnd).2.2
    rcases List.mem_append.mp hv with h | h
    · rw [List.countP_cons_of_pos _ _ (by simpa using h)]
      have h0 : gs.countP (fun g2 => decide (v ∈ g2)) = 0 := by
        rw [List.countP_eq_zero]
        intro g2 hg2
        simp only [decide_eq_true_eq]
        intro hv2
        exact hdis h (List.mem_flatten.mpr ⟨g2, hg2, hv2⟩)
      rw [h0]
    · have hvg : v ∉ g := fun hv2 => hdis hv2 h
      rw [List.countP_cons_of_neg _ _ (by simpa using hvg)]
      exact ih v hds h

theorem sum_map_ite {α : Type} (gs : List α) (q : α → Prop) [DecidablePred q]
    (n : ℕ) :
    (gs.map (fun g => if q g then n else 0)).sum
      = n * gs.countP (fun g => decide (q g)) := by
  induction gs with
  | nil => simp
  | cons g gs ih =>
    simp only [List.map_cons, List.sum_cons, ih]
    by_cases h : q g
    · rw [if_pos h, List.countP_cons_of_pos _ _ (by simpa using h), Nat.mul_succ]
      omega
    · rw [if_neg h, List.countP_cons_of_neg _ _ (by simpa using h)]
      omega

theorem count_filter_eq {α : Type} [DecidableEq α] (a : α) (l : List α)
    (p : α → Bool) :
    List.count a (l.filter p) = if p a then List.count a l else 0 := by
  by_cases h : p a = true
  · rw [if_pos h, List.count_filter h]
  · rw [if_neg h, List.count_eq_zero.mpr]
    intro hmem
    rw [List.mem_filter] at hmem
    exact h hmem.2

theorem flatten_bins_perm (gs : List (List ℚ)) (glyphs : List String)
    (fm : String → ℚ)
    (h : ∀ x ∈ glyphs, gs.countP (fun g => decide (fm x ∈ g)) = 1) :
    List.Perm
      ((gs.map (fun g => glyphs.filter (fun x => decide (fm x ∈ g)))).flatten)
      glyphs := by
  rw [List.perm_iff_count]
  intro a
  rw [List.count_flatten, List.map_map]
  have hmap : gs.map (List.count a ∘ fun g =>
        glyphs.filter (fun x => decide (fm x ∈ g)))
      = gs.map (fun g => if fm a ∈ g then List.count a glyphs else 0) := by
    apply List.map_congr_left
    intro g _
    simp only [Function.comp_apply]
    rw [count_filter_eq]
    by_cases hg : fm a ∈ g
    · rw [if_pos (by simpa using hg), if_pos hg]
    · rw [if_neg (by simpa using hg), if_neg hg]
  rw [hmap, sum_map_ite]
  by_cases ha : a ∈ glyphs
  · rw [h a ha, Nat.mul_one]
  · rw [List.count_eq_zero.mpr ha, Nat.zero_mul]

theorem mem_middle_of_between {pre g post : List ℚ}
    (hsorted : (pre ++ g ++ post).Sorted (· < ·)) {a b v : ℚ}
    (ha : a ∈ g) (hb : b ∈ g) (hv : v ∈ pre ++ g ++ post)
    (hav : a ≤ v) (hvb : v ≤ b) : v ∈ g := by
  rw [List.append_assoc] at hsorted hv
  have h1 := (List.pairwise_append.mp hsorted).2.2
  have h2 := (List.pairwise_append.mp ((List.pairwise_append.mp hsorted).2.1)).2.2
  rcases List.mem_append.mp hv with h | h
  · exact absurd (h1 v h a (List.mem_append_left post ha)) (by linarith)
  · rcases List.mem_append.mp h with h | h
    · exact h
    · exact absurd (h2 b hb v h) (by linarith)

theorem filter_cluster_eq (data g : List ℚ) (metrics : List (String × ℚ))
    (hmem : ∀ m ∈ metrics, m.2 ∈ data) :
    metrics.filter (fun m =>
        decide (m.2 ∈ (sortedData data).filter (fun v => decide (v ∈ g))))
      = metrics.filter (fun m => decide (m.2 ∈ g)) := by
  apply List.filter_congr
  intro m hm
  apply decide_eq_decide.mpr
  rw [List.mem_filter]
  simp only [decide_eq_true_eq]
  constructor
  · rintro ⟨_, h2⟩
    exact h2
  · intro h2
    exact ⟨mem_sortedData.mpr (hmem m hm), h2⟩

theorem metrics_filter_map_fst (fm : String → ℚ) (glyphs : List String)
    (p : ℚ → Bool) :
    (((glyphs.map (fun g => (g, fm g))).filter (fun m => p m.2)).map
        (fun x => x.1))
      = glyphs.filter (fun x => p (fm x)) := by
  induction glyphs with
  | nil => rfl
  | cons g gs ih =>
    simp only [List.map_cons, List.filter_cons]
    by_cases h : p (fm g) = true
    · simp [h, ih]
    · simp [h, ih]

theorem metrics_filter_map_snd (fm : String → ℚ) (glyphs : List String)
    (p : ℚ → Bool) :
    (((glyphs.map (fun g => (g, fm g))).filter (fun m => p m.2)).map
        (fun x => x.2))
      = (glyphs.filter (fun x => p (fm x))).map fm := by
  induction glyphs with
  | nil => rfl
  | cons g gs ih =>
    simp only [List.map_cons, List.filter_cons]
    by_cases h : p (fm g) = true
    · simp [h, ih]
    · simp [h, ih]

theorem justmetrics_eq (fm : String → ℚ) (glyphs : List String) :
    ((glyphs.map (fun g => (g, fm g))).map (fun x => x.2)) = glyphs.map fm := by
  rw [List.map_map]
  rfl

theorem ckmeans_ok (data : List ℚ) (k : ℕ) (hdata : data ≠ []) (hk : k ≠ 0) :
    ∃ comp, comp ∈ compositions (distinctSorted data).length
        (min k (distinctSorted data).length) ∧
      ckmeans data k
        = Except.ok (clustersOf data (splitByComp (distinctSorted data) comp)) := by
  have hcond : ¬(data = [] ∨ k = 0) := by
    push_neg
    exact ⟨hdata, hk⟩
  have hd1 : 1 ≤ (distinctSorted data).length :=
    List.length_pos.mpr (distinctSorted_ne_nil hdata)
  have hk1 : 1 ≤ k := Nat.one_le_iff_ne_zero.mpr hk
  have hk2a : 1 ≤ min k (distinctSorted data).length := by omega
  have hk2b : min k (distinctSorted data).length ≤ (distinctSorted data).length :=
    Nat.min_le_right _ _
  obtain ⟨c0, hc0⟩ := compositions_exists hk2a hk2b
  unfold ckmeans
  rw [if_neg hcond]
  cases hargmin : (compositions (distinctSorted data).length
      (min k (distinctSorted data).length)).argmin
      (compCost data (distinctSorted data)) with
  | none =>
    rw [List.argmin_eq_none] at hargmin
    rw [hargmin] at hc0
    exact absurd hc0 (List.not_mem_nil c0)
  | some comp =>
    have hm : comp ∈ (compositions (distinctSorted data).length
        (min k (distinctSorted data).length)).argmin
        (compCost data (distinctSorted data)) := by
      rw [hargmin]
      rfl
    exact ⟨comp, List.argmin_mem hm, rfl⟩

theorem metrics_filter_mem_map_fst (fm : String → ℚ) (glyphs : List String)
    (g : List ℚ) :
    (((glyphs.map (fun x => (x, fm x))).filter
        (fun m => decide (m.2 ∈ g))).map (fun x => x.1))
      = glyphs.filter (fun x => decide (fm x ∈ g)) :=
  metrics_filter_map_fst fm glyphs (fun v => decide (v ∈ g))

theorem metrics_filter_mem_map_snd (fm : String → ℚ) (glyphs : List String)
    (g : List ℚ) :
    (((glyphs.map (fun x => (x, fm x))).filter
        (fun m => decide (m.2 ∈ g))).map (fun x => x.2))
      = (glyphs.filter (fun x => decide (fm x ∈ g))).map fm :=
  metrics_filter_map_snd fm glyphs (fun v => decide (v ∈ g))

theorem binOfCluster_eq (fm : String → ℚ) (glyphs : List String) (g : List ℚ) :
    binOfCluster (glyphs.map (fun x => (x, fm x)))
        ((sortedData (glyphs.map fm)).filter (fun v => decide (v ∈ g)))
      = (glyphs.filter (fun x => decide (fm x ∈ g)),
         pyInt (pyMean ((glyphs.filter (fun x => decide (fm x ∈ g))).map fm))) := by
  have hmem : ∀ m ∈ glyphs.map (fun x => (x, fm x)), m.2 ∈ glyphs.map fm := by
    intro m hm
    obtain ⟨x, hx, rfl⟩ := List.mem_map.mp hm
    exact List.mem_map_of_mem fm hx
  unfold binOfCluster
  rw [filter_cluster_eq (glyphs.map fm) g _ hmem,
    metrics_filter_mem_map_fst, metrics_filter_mem_map_snd]

theorem bin_glyphs_ok (fm : String → ℚ) (glyphs : List String) (bincount : ℕ)
    (hg : glyphs ≠ []) (hb : 1 ≤ bincount) :
    ∃ comp, comp ∈ compositions (distinctSorted (glyphs.map fm)).length
        (min (if bincount > glyphs.length then glyphs.length else bincount)
          (distinctSorted (glyphs.map fm)).length) ∧
      bin_glyphs_by_metric fm glyphs bincount
        = Except.ok ((splitByComp (distinctSorted (glyphs.map fm)) comp).map
            (fun g => (glyphs.filter (fun x => decide (fm x ∈ g)),
              pyInt (pyMean ((glyphs.filter
                (fun x => decide (fm x ∈ g))).map fm))))) := by
  have hjm := justmetrics_eq fm glyphs
  have hglen : 1 ≤ glyphs.length := List.length_pos.mpr hg
  have hdata : ((glyphs.map (fun g => (g, fm g))).map (fun x => x.2)) ≠ [] := by
    rw [hjm]
    simp [hg]
  have hbc : (if bincount > glyphs.length then glyphs.length else bincount)
      ≠ 0 := by
    by_cases h : bincount > glyphs.length
    · rw [if_pos h]
      omega
    · rw [if_neg h]
      omega
  obtain ⟨comp, hmem, hck⟩ := ckmeans_ok _ _ hdata hbc
  rw [hjm] at hmem hck
  refine ⟨comp, hmem, ?_⟩
  unfold bin_glyphs_by_metric
  rw [hjm, hck]
  show Except.ok ((clustersOf (glyphs.map fm)
      (splitByComp (distinctSorted (glyphs.map fm)) comp)).map
      (binOfCluster (glyphs.map (fun g => (g, fm g))))) = _
  congr 1
  unfold clustersOf
  rw [List.map_map]
  apply List.map_congr_left
  intro g _
  exact binOfCluster_eq fm glyphs g

theorem splitByComp_replicate : ∀ (xs : List ℚ),
    splitByComp xs (List.replicate xs.length 1) = xs.map (fun v => [v]) := by
  intro xs
  induction xs with
  | nil => rfl
  | cons x xs ih =>
    simp only [List.length_cons, List.replicate_succ, splitByComp,
      List.take_succ_cons, List.take_zero, List.drop_succ_cons,
      List.drop_zero, List.map_cons]
    rw [ih]

theorem sum_const_list {l : List ℚ} {v : ℚ} (h : ∀ x ∈ l, x = v) :
    l.sum = l.length * v := by
  induction l with
  | nil => simp
  | cons x xs ih =>
    simp only [List.sum_cons, List.length_cons]
    rw [h x (List.mem_cons_self x xs),
      ih (fun y hy => h y (List.mem_cons_of_mem x hy))]
    push_cast
    ring

theorem pyMean_const {l : List ℚ} {v : ℚ} (hne : l ≠ [])
    (h : ∀ x ∈ l, x = v) : pyMean l = v := by
  have hlen : (l.length : ℚ) ≠ 0 :=
    Nat.cast_ne_zero.mpr (fun hc => hne (List.length_eq_zero.mp hc))
  unfold pyMean
  rw [sum_const_list h, mul_comm, mul_div_assoc, div_self hlen, mul_one]

theorem distinctSorted_length_le (l : List ℚ) :
    (distinctSorted l).length ≤ l.length := by
  have h1 : (distinctSorted l).length ≤ (sortedData l).length :=
    List.Sublist.length_le (List.dedup_sublist _)
  have h2 : (sortedData l).length = l.length := (sortedData_perm l).length_eq
  omega

/-! ### Claims C6-C8: the binning engine -/

/-- Claim C6 (against the spec-modelled ckmeans): for every non-empty
sample sequence, if the requested bin count exceeds the number of distinct
metric values, `bin_glyphs_by_metric` silently reduces it so that the
result has exactly one bin per distinct value (in ascending order), each
bin holding exactly the glyphs sharing that value with the value itself as
the bin mean, and no bin is empty. -/
theorem bin_glyphs_by_metric_distinct_values (fm : String → ℚ)
    (glyphs : List String) (bincount : ℕ) (hg : glyphs ≠ [])
    (hk : (distinctSorted (glyphs.map fm)).length < bincount) :
    bin_glyphs_by_metric fm glyphs bincount
      = Except.ok ((distinctSorted (glyphs.map fm)).map
          (fun v => (glyphs.filter (fun x => decide (fm x = v)), pyInt v))) ∧
    (∀ v ∈ distinctSorted (glyphs.map fm),
      glyphs.filter (fun x => decide (fm x = v)) ≠ []) ∧
    ∀ bins, bin_glyphs_by_metric fm glyphs bincount = Except.ok bins →
      bins.length = (distinctSorted (glyphs.map fm)).length := by
  have hmapne : glyphs.map fm ≠ [] := by
    simp [hg]
  have hd1 : 1 ≤ (distinctSorted (glyphs.map fm)).length :=
    List.length_pos.mpr (distinctSorted_ne_nil hmapne)
  have hb : 1 ≤ bincount := by omega
  obtain ⟨comp, hmem, heq⟩ := bin_glyphs_ok fm glyphs bincount hg hb
  have hdlen : (distinctSorted (glyphs.map fm)).length ≤ glyphs.length := by
    have := distinctSorted_length_le (glyphs.map fm)
    simpa using this
  have hk2 : min (if bincount > glyphs.length then glyphs.length else bincount)
      (distinctSorted (glyphs.map fm)).length
      = (distinctSorted (glyphs.map fm)).length := by
    by_cases h : bincount > glyphs.length
    · rw [if_pos h]
      omega
    · rw [if_neg h]
      omega
  rw [hk2, compositions_self, List.mem_singleton] at hmem
  subst hmem
  rw [splitByComp_replicate, List.map_map] at heq
  have hmain : bin_glyphs_by_metric fm glyphs bincount
      = Except.ok ((distinctSorted (glyphs.map fm)).map
          (fun v => (glyphs.filter (fun x => decide (fm x = v)),
            pyInt v))) := by
    rw [heq]
    congr 1
    apply List.map_congr_left
    intro v hv
    simp only [Function.comp_apply]
    have hfil : glyphs.filter (fun x => decide (fm x ∈ [v]))
        = glyphs.filter (fun x => decide (fm x = v)) := by
      apply List.filter_congr
      intro x _
      apply decide_eq_decide.mpr
      exact List.mem_singleton
    rw [hfil]
    have hvmem : v ∈ glyphs.map fm := mem_distinctSorted.mp hv
    obtain ⟨x0, hx0, hx0v⟩ := List.mem_map.mp hvmem
    have hne : glyphs.filter (fun x => decide (fm x = v)) ≠ [] := by
      apply List.ne_nil_of_mem (a := x0)
      rw [List.mem_filter]
      exact ⟨hx0, by simp [hx0v]⟩
    have hmean : pyMean ((glyphs.filter
        (fun x => decide (fm x = v))).map fm) = v := by
      apply pyMean_const
      · simp [hne]
      · intro y hy
        obtain ⟨x, hx, rfl⟩ := List.mem_map.mp hy
        rw [List.mem_filter] at hx
        simpa using hx.2
    rw [hmean]
  refine ⟨hmain, ?_, ?_⟩
  · intro v hv
    have hvmem : v ∈ glyphs.map fm := mem_distinctSorted.mp hv
    obtain ⟨x0, hx0, hx0v⟩ := List.mem_map.mp hvmem
    apply List.ne_nil_of_mem (a := x0)
    rw [List.mem_filter]
    exact ⟨hx0, by simp [hx0v]⟩
  · intro bins hbins
    rw [hmain] at hbins
    simp only [Except.ok.injEq] at hbins
    rw [← hbins, List.length_map]

theorem bin_glyphs_by_metric_distinct_values_witness :
    bin_glyphs_by_metric
        (fun g => if g = "a" then (1 : ℚ) else if g = "b" then 1 else 2)
        ["a", "b", "c"] 5
      = Except.ok [(["a", "b"], 1), (["c"], 2)] := by
  have h := (bin_glyphs_by_metric_distinct_values
    (fun g => if g = "a" then (1 : ℚ) else if g = "b" then 1 else 2)
    ["a", "b", "c"] 5 (by simp) (by decide)).1
  rw [h]
  rfl

/-- Claim C7 (against the spec-modelled ckmeans): for every valid input,
the bins returned by `bin_glyphs_by_metric` form a true disjoint cover of
the input glyph multiset: the concatenation of the bins is a permutation
of the input glyphs, every input glyph appears in exactly one bin, and
each bin contains every glyph whose metric value falls in that bin's value
range (between the values of any two of its members). -/
theorem bin_glyphs_by_metric_disjoint_cover (fm : String → ℚ)
    (glyphs : List String) (bincount : ℕ) (hg : glyphs ≠ [])
    (hb : 1 ≤ bincount) :
    (bin_glyphs_by_metric fm glyphs bincount).isOk = true ∧
    ∀ bins, bin_glyphs_by_metric fm glyphs bincount = Except.ok bins →
      List.Perm ((bins.map (fun b => b.1)).flatten) glyphs ∧
      (∀ x ∈ glyphs, bins.countP (fun b => decide (x ∈ b.1)) = 1) ∧
      ∀ b ∈ bins, ∀ x ∈ glyphs, ∀ y ∈ glyphs, ∀ z ∈ glyphs,
        x ∈ b.1 → y ∈ b.1 → fm x ≤ fm z → fm z ≤ fm y → z ∈ b.1 := by
  obtain ⟨comp, hmem, heq⟩ := bin_glyphs_ok fm glyphs bincount hg hb
  obtain ⟨hsum, hklen, hpos⟩ := mem_compositions hmem
  have hflat : (splitByComp (distinctSorted (glyphs.map fm)) comp).flatten
      = distinctSorted (glyphs.map fm) :=
    splitByComp_flatten_eq _ _ hsum
  have hndflat :
      (splitByComp (distinctSorted (glyphs.map fm)) comp).flatten.Nodup := by
    rw [hflat]
    exact distinctSorted_nodup _
  have hxds : ∀ x ∈ glyphs, fm x ∈
      (splitByComp (distinctSorted (glyphs.map fm)) comp).flatten := by
    intro x hx
    rw [hflat]
    exact mem_distinctSorted.mpr (List.mem_map_of_mem fm hx)
  constructor
  · rw [heq]
    rfl
  · intro bins hbins
    rw [heq] at hbins
    simp only [Except.ok.injEq] at hbins
    subst hbins
    refine ⟨?_, ?_, ?_⟩
    · rw [List.map_map]
      exact flatten_bins_perm _ glyphs fm (fun x hx =>
        countP_eq_one_of_nodup_flatten _ _ hndflat (hxds x hx))
    · intro x hx
      rw [List.countP_map]
      have h1 := countP_eq_one_of_nodup_flatten _ (fm x) hndflat (hxds x hx)
      rw [← h1]
      apply List.countP_congr
      intro g _
      simp only [Function.comp_apply, decide_eq_true_eq, List.mem_filter]
      constructor
      · rintro ⟨_, h2⟩
        exact h2
      · intro h2
        exact ⟨hx, h2⟩
    · intro b hbmem x hx y hy z hz hxb hyb hxz hzy
      obtain ⟨g, hgmem, rfl⟩ := List.mem_map.mp hbmem
      simp only [List.mem_filter, decide_eq_true_eq] at hxb hyb
      obtain ⟨pre, post, hsplit⟩ := splitByComp_context _ _ _ hgmem
      have hsorted : (pre ++ g ++ post).Sorted (· < ·) := by
        rw [← hsplit]
        exact distinctSorted_sorted_lt _
      have hzmem : fm z ∈ pre ++ g ++ post := by
        rw [← hsplit]
        exact mem_distinctSorted.mpr (List.mem_map_of_mem fm hz)
      have hfmz : fm z ∈ g :=
        mem_middle_of_between hsorted hxb.2 hyb.2 hzmem hxz hzy
      simp only [List.mem_filter, decide_eq_true_eq]
      exact ⟨hz, hfmz⟩

theorem pyMean_singleton (v : ℚ) : pyMean [v] = v := by
  unfold pyMean
  simp

theorem pyInt_eq_floor {q : ℚ} (h : 0 ≤ q) : pyInt q = ⌊q⌋ := by
  unfold pyInt
  rw [Int.tdiv_eq_ediv (Rat.num_nonneg.mpr h) (Int.ofNat_nonneg _)]
  exact Rat.floor_def.symm

theorem pyMean_perm {l1 l2 : List ℚ} (h : List.Perm l1 l2) :
    pyMean l1 = pyMean l2 := by
  unfold pyMean
  rw [h.sum_eq, h.length_eq]

theorem ckmeans_perm_eq {data1 data2 : List ℚ} (k : ℕ)
    (h : List.Perm data1 data2) : ckmeans data1 k = ckmeans data2 k := by
  have hs : sortedData data1 = sortedData data2 :=
    List.eq_of_perm_of_sorted (r := (· ≤ ·))
      (((sortedData_perm data1).trans h).trans (sortedData_perm data2).symm)
      (sortedData_sorted data1) (sortedData_sorted data2)
  have hd : distinctSorted data1 = distinctSorted data2 := by
    unfold distinctSorted
    rw [hs]
  have hclu : ∀ gs, clustersOf data1 gs = clustersOf data2 gs := by
    intro gs
    unfold clustersOf
    rw [hs]
  have hcost : ∀ dsx, compCost data1 dsx = compCost data2 dsx := by
    intro dsx
    funext comp
    unfold compCost
    rw [hclu]
  have hnil : data1 = [] ↔ data2 = [] := by
    constructor
    · intro h1
      subst h1
      exact List.Perm.eq_nil h.symm
    · intro h2
      subst h2
      exact List.Perm.eq_nil h
  unfold ckmeans
  by_cases hc : data1 = [] ∨ k = 0
  · rw [if_pos hc, if_pos ?_]
    rcases hc with hc | hc
    · exact Or.inl (hnil.mp hc)
    · exact Or.inr hc
  · rw [if_neg hc, if_neg ?_]
    · simp only [hd, hclu, hcost]
    · intro hc2
      rcases hc2 with hc2 | hc2
      · exact hc (Or.inl (hnil.mpr hc2))
      · exact hc (Or.inr hc2)

theorem forall₂_map_map {α β : Type} (R : β → β → Prop) (f g : α → β) :
    ∀ (l : List α), (∀ x ∈ l, R (f x) (g x)) →
      List.Forall₂ R (l.map f) (l.map g) := by
  intro l
  induction l with
  | nil =>
    intro _
    simp
  | cons x xs ih =>
    intro h
    simp only [List.map_cons]
    exact List.Forall₂.cons (h x (List.mem_cons_self x xs))
      (ih (fun y hy => h y (List.mem_cons_of_mem x hy)))

/-- Claim C8: `bin_glyphs_by_metric` is order-independent: permuting the
input glyph names yields the same success/failure, and on success bins in
the same order whose membership lists are permutations of each other
(identical membership sets) with identical truncated mean values. -/
theorem bin_glyphs_by_metric_perm (fm : String → ℚ)
    {glyphs1 glyphs2 : List String} (bincount : ℕ)
    (h : List.Perm glyphs1 glyphs2) :
    (bin_glyphs_by_metric fm glyphs1 bincount).isOk
      = (bin_glyphs_by_metric fm glyphs2 bincount).isOk ∧
    ∀ bins1 bins2,
      bin_glyphs_by_metric fm glyphs1 bincount = Except.ok bins1 →
      bin_glyphs_by_metric fm glyphs2 bincount = Except.ok bins2 →
      List.Forall₂ (fun b1 b2 => List.Perm b1.1 b2.1 ∧ b1.2 = b2.2)
        bins1 bins2 := by
  have hmp : List.Perm (glyphs1.map (fun g => (g, fm g)))
      (glyphs2.map (fun g => (g, fm g))) := h.map _
  have hjp : List.Perm ((glyphs1.map (fun g => (g, fm g))).map (fun x => x.2))
      ((glyphs2.map (fun g => (g, fm g))).map (fun x => x.2)) := hmp.map _
  have hlen : glyphs1.length = glyphs2.length := h.length_eq
  have hck : ckmeans ((glyphs1.map (fun g => (g, fm g))).map (fun x => x.2))
        (if bincount > glyphs2.length then glyphs2.length else bincount)
      = ckmeans ((glyphs2.map (fun g => (g, fm g))).map (fun x => x.2))
        (if bincount > glyphs2.length then glyphs2.length else bincount) :=
    ckmeans_perm_eq _ hjp
  unfold bin_glyphs_by_metric
  rw [hlen, hck]
  cases hs : ckmeans ((glyphs2.map (fun g => (g, fm g))).map (fun x => x.2))
      (if bincount > glyphs2.length then glyphs2.length else bincount) with
  | error e =>
    constructor
    · rfl
    · intro bins1 bins2 h1 h2
      simp at h1
  | ok clusters =>
    constructor
    · rfl
    · intro bins1 bins2 h1 h2
      simp only [Except.ok.injEq] at h1 h2
      subst h1
      subst h2
      apply forall₂_map_map
      intro c _
      constructor
      · exact ((hmp.filter _).map _)
      · have hp : List.Perm
            (((glyphs1.map (fun g => (g, fm g))).filter
              (fun m => decide (m.2 ∈ c))).map (fun x => x.2))
            (((glyphs2.map (fun g => (g, fm g))).filter
              (fun m => decide (m.2 ∈ c))).map (fun x => x.2)) :=
          ((hmp.filter _).map _)
        simp only [binOfCluster]
        rw [pyMean_perm hp]

theorem bin_glyphs_by_metric_disjoint_cover_witness :
    List.Perm ((([(["a"], (1 : ℤ)), (["b"], 2)] :
      List (List String × ℤ)).map (fun b => b.1)).flatten) ["a", "b"] := by
  have hbins : bin_glyphs_by_metric (fun g => if g = "a" then (1 : ℚ) else 2)
      ["a", "b"] 2 = Except.ok [(["a"], 1), (["b"], 2)] := by
    show Except.ok [((["a"] : List String), pyInt (pyMean [1])),
        (["b"], pyInt (pyMean [2]))] = Except.ok [(["a"], 1), (["b"], 2)]
    rw [pyMean_singleton, pyMean_singleton]
    rfl
  have h := bin_glyphs_by_metric_disjoint_cover
    (fun g => if g = "a" then (1 : ℚ) else 2) ["a", "b"] 2
    (by simp) (by norm_num)
  exact (h.2 _ hbins).1

theorem bin_glyphs_by_metric_perm_witness :
    List.Forall₂ (fun b1 b2 => List.Perm b1.1 b2.1 ∧ b1.2 = b2.2)
      [((["a", "b"] : List String), (1 : ℤ))] [(["b", "a"], 1)] := by
  have hm1 : pyMean [(1 : ℚ), 2] = 3 / 2 := by
    unfold pyMean
    norm_num
  have hpy1 : pyInt (pyMean [(1 : ℚ), 2]) = 1 := by
    rw [hm1, pyInt_eq_floor (by norm_num)]
    norm_num
  have hm2 : pyMean [(2 : ℚ), 1] = 3 / 2 := by
    unfold pyMean
    norm_num
  have hpy2 : pyInt (pyMean [(2 : ℚ), 1]) = 1 := by
    rw [hm2, pyInt_eq_floor (by norm_num)]
    norm_num
  have hbins1 : bin_glyphs_by_metric (fun g => if g = "a" then (1 : ℚ) else 2)
      ["a", "b"] 1 = Except.ok [(["a", "b"], 1)] := by
    show Except.ok [((["a", "b"] : List String), pyInt (pyMean [1, 2]))]
        = Except.ok [(["a", "b"], 1)]
    rw [hpy1]
  have hbins2 : bin_glyphs_by_metric (fun g => if g = "a" then (1 : ℚ) else 2)
      ["b", "a"] 1 = Except.ok [(["b", "a"], 1)] := by
    show Except.ok [((["b", "a"] : List String), pyInt (pyMean [2, 1]))]
        = Except.ok [(["b", "a"], 1)]
    rw [hpy2]
  have h := bin_glyphs_by_metric_perm (fun g => if g = "a" then (1 : ℚ) else 2)
    1 (List.Perm.swap "b" "a" [])
  exact h.2 _ _ hbins1 hbins2

/-! ### Claims C9-C10: glyph categories -/

/-- Claim C9: for every fontTools font object: if the font has no GDEF
table, or the glyph is absent from GDEF's GlyphClassDef, or its class code
is not one of 1-4, `categorize_glyph` returns `("unknown", None)` rather
than raising an error. -/
theorem categorize_glyph_unknown (f : TTFont) (glyphname : String)
    (h : f.hasGDEF = false ∨ f.glyphClassDef glyphname = none ∨
      ∃ c, f.glyphClassDef glyphname = some c ∧
        c ≠ 1 ∧ c ≠ 2 ∧ c ≠ 3 ∧ c ≠ 4) :
    categorize_glyph (Font.ttf f) glyphname = ("unknown", none) := by
  rcases h with h | h | ⟨c, hc, h1, h2, h3, h4⟩
  · simp [categorize_glyph, h]
  · by_cases hg : f.hasGDEF = false
    · simp [categorize_glyph, hg]
    · simp [categorize_glyph, hg, h]
  · by_cases hg : f.hasGDEF = false
    · simp [categorize_glyph, hg]
    · simp [categorize_glyph, hg, hc, h1, h2, h3, h4]

theorem categorize_glyph_unknown_witness :
    categorize_glyph
        (Font.ttf ⟨true, fun _ => some 7, false, fun _ => none⟩) "x"
      = ("unknown", none) :=
  categorize_glyph_unknown _ _ (Or.inr (Or.inr
    ⟨7, rfl, by decide, by decide, by decide, by decide⟩))

/-- Claim C10: for every babelfont font object, `set_glyph_category`
writes only the glyph's category field and returns successfully: the
`maClass` argument is discarded (no mark attachment class is stored), all
other glyphs and all other fields of the target glyph are unchanged, and
no unknown-category validation is performed on this path — the call
succeeds for every category string. -/
theorem set_glyph_category_babelfont_frame (f : String → BabelGlyph)
    (glyphname category : String) (maClass : Option ℤ) :
    set_glyph_category (Font.babel f) glyphname category maClass
      = Except.ok (Font.babel (fun g =>
          if g = glyphname then { f g with category := category }
          else f g)) ∧
    (∀ maClass2,
      set_glyph_category (Font.babel f) glyphname category maClass2
        = set_glyph_category (Font.babel f) glyphname category maClass) ∧
    ∀ font2, set_glyph_category (Font.babel f) glyphname category maClass
        = Except.ok (Font.babel font2) →
      (font2 glyphname).category = category ∧
      (font2 glyphname).width = (f glyphname).width ∧
      (font2 glyphname).markAttachmentClass
        = (f glyphname).markAttachmentClass ∧
      ∀ g, g ≠ glyphname → font2 g = f g := by
  refine ⟨rfl, fun _ => rfl, ?_⟩
  intro font2 h
  simp only [set_glyph_category, Except.ok.injEq, Font.babel.injEq] at h
  subst h
  refine ⟨by simp, by simp, by simp, ?_⟩
  intro g hg
  simp [hg]

theorem set_glyph_category_babelfont_frame_witness :
    set_glyph_category
        (Font.babel (fun _ => ⟨"base", 100, none⟩)) "x" "bogus" (some 5)
      = Except.ok (Font.babel (fun g =>
          if g = "x" then ⟨"bogus", 100, none⟩
          else ⟨"base", 100, none⟩)) := by
  have h := set_glyph_category_babelfont_frame
    (fun _ => ⟨"base", 100, none⟩) "x" "bogus" (some 5)
  rw [h.1]
